import Mathlib

/-!
Shallow embedding of the categorization/tagging engine of the feed.me
repository (`src/spacefeeder/src/categorization/engine.rs` and the config
types in `src/spacefeeder/src/config/types.rs`), together with theorems
settling the specification claims about it.

Modelling conventions:
* `f32` confidence values are modelled by `F`: finite values exactly as
  rationals, plus a `nan` class.  Infinities never arise in the constructs
  reasoned about here and are omitted.
* Rust strings are Lean `String`s; `str::to_lowercase` and
  `char::is_alphabetic` are modelled by their ASCII fragments, on which the
  Rust and Lean notions agree (every string occurring in a concrete claim
  is ASCII).
* `HashSet`/`HashMap` are modelled by lists: only membership and
  last-insertion-wins lookup are observable in the embedded code.  The
  iteration order of the feed-tag hint set (used in step 6 of the pipeline)
  is unspecified in Rust; the model fixes first-occurrence order, and no
  theorem below depends on that choice.
-/

deriving instance DecidableEq for Except

namespace Spacefeeder

/-- Model of an `f32` value as used by the engine: a finite float held
exactly as a rational, or the `NaN` class. -/
inductive F where
  | num (q : ℚ)
  | nan
deriving DecidableEq

/-- Rational minimum written with an explicit comparison so that the
kernel can evaluate it (`min` on `ℚ` goes through lattice instances that
do not reduce); models `f32::min`/`.min(..)` on genuine numbers. -/
def qmin (p q : ℚ) : ℚ := if p ≤ q then p else q

/-- Rational maximum, explicit for the same reason; models `.max(..)`. -/
def qmax (p q : ℚ) : ℚ := if q ≤ p then p else q

/-- Rational multiplication written through `mkRat` so that the kernel can
evaluate it (`Rat.mul` does not reduce); proved equal to `*` below. -/
def qmul (a b : ℚ) : ℚ := mkRat (a.num * b.num) (a.den * b.den)

/-- Rational division written through `mkRat` for the same reason; proved
equal to `/` below (with the field convention `a / 0 = 0`). -/
def qdiv (a b : ℚ) : ℚ :=
  if b.num < 0 then mkRat (-(a.num * (b.den : Int))) (a.den * b.num.natAbs)
  else mkRat (a.num * (b.den : Int)) (a.den * b.num.natAbs)

/-- IEEE multiplication on the modelled values: `NaN` is absorbing. -/
def F.mul : F → F → F
  | .num p, .num q => .num (qmul p q)
  | _, _ => .nan

/-- Rust `f32::min`: if one argument is `NaN` the other is returned. -/
def F.fmin : F → F → F
  | .num p, .num q => .num (qmin p q)
  | .num p, .nan => .num p
  | .nan, .num q => .num q
  | .nan, .nan => .nan

/-- IEEE `>=` as used in `confidence >= threshold`: any comparison
involving `NaN` is false. -/
def F.geB : F → F → Bool
  | .num p, .num q => decide (q ≤ p)
  | _, _ => false

/-- Whether the value is a genuine number (not `NaN`). -/
def F.isNum : F → Bool
  | .num _ => true
  | .nan => false

/-- Total order used to model the final `sort_by` comparator
`b.confidence.partial_cmp(&a.confidence).unwrap()`.  On numbers it is the
numeric order; `nan` is placed below every number.  The sort is only
reached when no confidence is `NaN` (otherwise the `unwrap` panics), so
the `nan` rows are never exercised there. -/
def F.leB : F → F → Bool
  | .nan, _ => true
  | .num _, .nan => false
  | .num p, .num q => decide (p ≤ q)

/-- ASCII fragment of Rust `char::to_lowercase` (= Lean `Char.toLower`):
maps `A`-`Z` to `a`-`z` and fixes everything else. -/
def lowerChar (c : Char) : Char :=
  if c.toNat ≥ 65 ∧ c.toNat ≤ 90 then Char.ofNat (c.toNat + 32) else c

/-- ASCII fragment of Rust `str::to_lowercase`. -/
def strLower (s : String) : String :=
  ⟨s.data.map lowerChar⟩

/-- Character index of the first occurrence of `needle` in `hay`,
modelling Rust `str::find` (which returns byte indices; both index the
same occurrence). -/
def firstOccur (needle : List Char) : List Char → Option Nat
  | [] => if needle.isPrefixOf ([] : List Char) then some 0 else none
  | c :: tl =>
    if needle.isPrefixOf (c :: tl) then some 0
    else (firstOccur needle tl).map (· + 1)

/-- Rust `str::contains` for a string pattern: `hay.contains(needle)`. -/
def strContains (hay needle : String) : Bool :=
  (firstOccur needle.data hay.data).isSome

/-- `CategorizationEngine::matches_keyword`
(`src/spacefeeder/src/categorization/engine.rs:373`): a multi-word keyword
is matched by plain substring containment; a single-word keyword must in
addition sit at non-alphabetic boundaries, checked at the first occurrence
only. -/
def matchesKeyword (content keyword : String) : Bool :=
  if keyword.data.contains ' ' then strContains content keyword
  else
    match firstOccur keyword.data content.data with
    | none => false
    | some bytePos =>
      let beforeOk :=
        match (content.data.take bytePos).getLast? with
        | none => true
        | some lastChar => !lastChar.isAlpha
      let afterOk :=
        match (content.data.drop (bytePos + keyword.data.length)).head? with
        | none => true
        | some firstChar => !firstChar.isAlpha
      beforeOk && afterOk

/-- The number of keywords of `keywords` matching `content` after
lower-casing both sides (the counting loop of
`CategorizationEngine::check_keywords`). -/
def matchedCount (content : String) (keywords : List String) : Nat :=
  (keywords.filter (fun kw => matchesKeyword (strLower content) (strLower kw))).length

/-- `CategorizationEngine::check_keywords`
(`src/spacefeeder/src/categorization/engine.rs:354`): `none` when no
keyword matches, otherwise the matched count divided by
`min(keyword count, 3)`, capped at `1.0`.  The result is always a genuine
number, hence modelled as `Option ℚ`. -/
def checkKeywords (content : String) (keywords : List String) : Option ℚ :=
  if matchedCount content keywords > 0 then
    some (qmin (qdiv (matchedCount content keywords : ℚ) (qmin (keywords.length : ℚ) 3)) 1)
  else none

structure TagDefinition where
  name : String
  description : String
  keywords : List String
deriving DecidableEq

structure TagRule where
  rule_type : String
  patterns : List String
  tag : String
  tags : List String
  confidence : F
  exclude_patterns : List String
  min_keyword_count : Option Nat
  required_keywords : List String
  exclude_tags : List String
deriving DecidableEq

/-- A tag alias; the source field `from` is a Lean keyword and is renamed
`fromNames`; `to` likewise is reserved and is renamed `toName`. -/
structure TagAlias where
  fromNames : List String
  toName : String
deriving DecidableEq

structure CategorizationConfig where
  enabled : Bool
  auto_tag_new_articles : Bool
  max_tags_per_item : Nat
  confidence_threshold : F
  tags : List TagDefinition
  rules : List TagRule
  aliases : List TagAlias
deriving DecidableEq

inductive TagSource where
  | Manual
  | Feed
  | Rule
  | Keyword
deriving DecidableEq

structure Tag where
  name : String
  confidence : F
  source : TagSource
deriving DecidableEq

structure ItemContext where
  title : String
  description : Option String
  link : Option String
  author : Option String
  feed_slug : String
  feed_tags : Option (List String)
  rss_categories : Option (List String)
deriving DecidableEq

/-- The pairs inserted into the engine's alias `HashMap` at construction
(`CategorizationEngine::from_config`): each lower-cased `from` entry maps
to the alias's `to`, in iteration order. -/
def aliasPairs (cfg : CategorizationConfig) : List (String × String) :=
  (cfg.aliases.map (fun a => a.fromNames.map (fun f => (strLower f, a.toName)))).flatten

/-- `HashMap` lookup: later insertions overwrite earlier ones, so the last
matching pair wins. -/
def aliasLookup (cfg : CategorizationConfig) (key : String) : Option String :=
  (aliasPairs cfg).reverse.lookup key

/-- `CategorizationEngine::normalize_tag`: lower-case, then alias lookup,
falling back to the lower-cased input. -/
def normalizeTag (cfg : CategorizationConfig) (tag : String) : String :=
  match aliasLookup cfg (strLower tag) with
  | some t => t
  | none => strLower tag

/-- The lower-cased `title + " " + description` string the engine builds
for content matching. -/
def ruleContent (title : String) (description : Option String) : String :=
  strLower title ++ " " ++ strLower (description.getD "")

/-- The match predicate of `CategorizationEngine::apply_rule`
(`src/spacefeeder/src/categorization/engine.rs:225`): the `match` over
`rule_type`, one arm per rule kind, written as an equality chain. -/
def ruleMatches (rule : TagRule) (title : String) (description link author : Option String)
    (feed_slug : String) : Bool :=
  if rule.rule_type = "title_contains" then
    rule.patterns.any (fun p => matchesKeyword (strLower title) (strLower p))
  else if rule.rule_type = "content_contains" then
    rule.patterns.any (fun p => matchesKeyword (ruleContent title description) (strLower p))
  else if rule.rule_type = "content_analysis" then
    let matched := (rule.patterns.filter
      (fun p => matchesKeyword (ruleContent title description) (strLower p))).length
    match rule.min_keyword_count with
    | some minCount => decide (matched ≥ minCount)
    | none => decide (matched > 0)
  else if rule.rule_type = "author_with_content" then
    match author with
    | some authorStr =>
      if rule.patterns.any (fun p => strContains (strLower authorStr) (strLower p)) then
        if rule.required_keywords.isEmpty then false
        else
          rule.required_keywords.all
            (fun kw => matchesKeyword (ruleContent title description) (strLower kw))
      else false
    | none => false
  else if rule.rule_type = "url_contains" then
    match link with
    | some url => rule.patterns.any (fun p => strContains (strLower url) (strLower p))
    | none => false
  else if rule.rule_type = "author_contains" then
    match author with
    | some authorStr =>
      rule.patterns.any (fun p => strContains (strLower authorStr) (strLower p))
    | none => false
  else if rule.rule_type = "feed_slug" then
    rule.patterns.any (fun p => feed_slug == p)
  else false

/-- The candidate tags a matching rule emits
(`src/spacefeeder/src/categorization/engine.rs:323`): one for `tag` when
non-empty, plus one per `tags` entry, all carrying the rule's confidence
and source `Rule`. -/
def ruleTagList (rule : TagRule) : List Tag :=
  (if rule.tag ≠ "" then [Tag.mk rule.tag rule.confidence TagSource.Rule] else []) ++
    rule.tags.map (fun t => Tag.mk t rule.confidence TagSource.Rule)

/-- `CategorizationEngine::apply_rule`
(`src/spacefeeder/src/categorization/engine.rs:201`).  The Rust code skips
the exclude-pattern scan when `exclude_patterns` is empty; `List.any` on
the empty list is false, so the guard is dropped without change of
behaviour. -/
def applyRule (rule : TagRule) (title : String) (description link author : Option String)
    (feed_slug : String) : Option (List Tag) :=
  if rule.exclude_patterns.any
      (fun p => matchesKeyword (ruleContent title description) (strLower p)) then
    none
  else if ruleMatches rule title description link author feed_slug then
    if (ruleTagList rule).isEmpty then none else some (ruleTagList rule)
  else none

/-- Step 1 of `generate_tags_for_item`: RSS/Atom protocol categories,
normalized, deduplicated against `seen`, pushed with confidence `0.9` and
source `Feed`.  Returns the pushed tags and the grown `seen` set. -/
def rssStep (cfg : CategorizationConfig) : List String → List String → List Tag × List String
  | [], seen => ([], seen)
  | c :: cs, seen =>
    let n := normalizeTag cfg c
    if n ∈ seen then rssStep cfg cs seen
    else
      let rest := rssStep cfg cs (n :: seen)
      (Tag.mk n (F.num (mkRat 9 10)) TagSource.Feed :: rest.1, rest.2)

/-- Step 2 of `generate_tags_for_item`: the union of the `exclude_tags`
of every `exclude_if` rule one of whose patterns matches the lower-cased
title+description. -/
def excludedFrom (title : String) (description : Option String) :
    List TagRule → List String
  | [] => []
  | r :: rs =>
    (if r.rule_type = "exclude_if" ∧
        r.patterns.any (fun p => matchesKeyword (ruleContent title description) (strLower p))
          = true
     then r.exclude_tags else []) ++ excludedFrom title description rs

/-- Push one rule's candidate tags (the inner loop of step 3): normalize
the name, skip names that are excluded or already seen. -/
def pushTags (cfg : CategorizationConfig) (excluded : List String) :
    List Tag → List String → List Tag × List String
  | [], seen => ([], seen)
  | t :: ts, seen =>
    let n := normalizeTag cfg t.name
    if n ∉ excluded ∧ n ∉ seen then
      let rest := pushTags cfg excluded ts (n :: seen)
      (Tag.mk n t.confidence t.source :: rest.1, rest.2)
    else pushTags cfg excluded ts seen

/-- Step 3 of `generate_tags_for_item`: apply every non-`exclude_if` rule
in declaration order. -/
def ruleStep (cfg : CategorizationConfig) (ctx : ItemContext) (excluded : List String) :
    List TagRule → List String → List Tag × List String
  | [], seen => ([], seen)
  | r :: rs, seen =>
    if r.rule_type = "exclude_if" then ruleStep cfg ctx excluded rs seen
    else
      match applyRule r ctx.title ctx.description ctx.link ctx.author ctx.feed_slug with
      | none => ruleStep cfg ctx excluded rs seen
      | some matched =>
        let pushed := pushTags cfg excluded matched seen
        let rest := ruleStep cfg ctx excluded rs pushed.2
        (pushed.1 ++ rest.1, rest.2)

/-- Step 4 of `generate_tags_for_item`: keyword-based tagging over the
(un-lowercased) `title + " " + description`; `check_keywords` lower-cases
internally. -/
def keywordStep (cfg : CategorizationConfig) (ctx : ItemContext) (excluded : List String) :
    List TagDefinition → List String → List Tag × List String
  | [], seen => ([], seen)
  | td :: tds, seen =>
    match checkKeywords (ctx.title ++ " " ++ ctx.description.getD "") td.keywords with
    | some conf =>
      if F.geB (F.num conf) cfg.confidence_threshold then
        let n := normalizeTag cfg td.name
        if n ∉ excluded ∧ n ∉ seen then
          let rest := keywordStep cfg ctx excluded tds (n :: seen)
          (Tag.mk n (F.num conf) TagSource.Keyword :: rest.1, rest.2)
        else keywordStep cfg ctx excluded tds seen
      else keywordStep cfg ctx excluded tds seen
    | none => keywordStep cfg ctx excluded tds seen

/-- Step 5 of `generate_tags_for_item`: tags whose name is a feed-tag hint
have their confidence multiplied by `1.2` and capped (via `f32::min`) at
`0.95`. -/
def boostTag (hints : List String) (t : Tag) : Tag :=
  if t.name ∈ hints then
    Tag.mk t.name (F.fmin (F.mul t.confidence (F.num (mkRat 6 5))) (F.num (mkRat 19 20))) t.source
  else t

/-- The normalized feed-tag hint set.  `HashSet` iteration order is
unspecified; the model uses `List.dedup` (membership is what matters). -/
def feedTagHints (cfg : CategorizationConfig) (ctx : ItemContext) : List String :=
  ((ctx.feed_tags.getD []).map (normalizeTag cfg)).dedup

/-- Step 6 of `generate_tags_for_item`: a feed hint not yet seen and not
excluded is admitted with confidence `0.25` and source `Manual` when its
`TagDefinition` exists, has keywords, and at least one keyword matches the
lower-cased title+description. -/
def hintStep (cfg : CategorizationConfig) (ctx : ItemContext) (excluded : List String) :
    List String → List String → List Tag × List String
  | [], seen => ([], seen)
  | h :: hs, seen =>
    if h ∉ seen ∧ h ∉ excluded then
      match cfg.tags.find? (fun td => normalizeTag cfg td.name == h) with
      | some td =>
        if td.keywords.isEmpty then hintStep cfg ctx excluded hs seen
        else if td.keywords.any
            (fun kw => matchesKeyword (ruleContent ctx.title ctx.description) (strLower kw)) then
          let rest := hintStep cfg ctx excluded hs (h :: seen)
          (Tag.mk h (F.num (mkRat 1 4)) TagSource.Manual :: rest.1, rest.2)
        else hintStep cfg ctx excluded hs seen
      | none => hintStep cfg ctx excluded hs seen
    else hintStep cfg ctx excluded hs seen

/-- Steps 1 and 2 applied to an item. -/
def rssPart (cfg : CategorizationConfig) (ctx : ItemContext) : List Tag × List String :=
  rssStep cfg (ctx.rss_categories.getD []) []

def excludedPart (cfg : CategorizationConfig) (ctx : ItemContext) : List String :=
  excludedFrom ctx.title ctx.description cfg.rules

/-- The tags appended by rule-based tagging (step 3). -/
def rulePart (cfg : CategorizationConfig) (ctx : ItemContext) : List Tag × List String :=
  ruleStep cfg ctx (excludedPart cfg ctx) cfg.rules (rssPart cfg ctx).2

/-- The tags appended by keyword-based tagging (step 4); empty if
`auto_tag_new_articles` is off. -/
def keywordPart (cfg : CategorizationConfig) (ctx : ItemContext) : List Tag × List String :=
  if cfg.auto_tag_new_articles then
    keywordStep cfg ctx (excludedPart cfg ctx) cfg.tags (rulePart cfg ctx).2
  else ([], (rulePart cfg ctx).2)

/-- The tags appended by weak feed-hint admission (step 6). -/
def hintPart (cfg : CategorizationConfig) (ctx : ItemContext) : List Tag × List String :=
  hintStep cfg ctx (excludedPart cfg ctx) (feedTagHints cfg ctx) (keywordPart cfg ctx).2

/-- The candidate list handed to the final sort, in insertion order:
steps 1, 3 and 4 with the step-5 boost applied, then the step-6 tags. -/
def candidateTags (cfg : CategorizationConfig) (ctx : ItemContext) : List Tag :=
  (((rssPart cfg ctx).1 ++ (rulePart cfg ctx).1 ++ (keywordPart cfg ctx).1).map
      (boostTag (feedTagHints cfg ctx))) ++
    (hintPart cfg ctx).1

/-- The sort relation of the final `sort_by`: `a` may precede `b` when
`b`'s confidence is at most `a`'s (descending order). -/
def tagLe (a b : Tag) : Prop := F.leB b.confidence a.confidence = true

instance : DecidableRel tagLe := fun a b =>
  instDecidableEqBool (F.leB b.confidence a.confidence) true

/-- `CategorizationEngine::generate_tags_for_item`
(`src/spacefeeder/src/categorization/engine.rs:54`).  `Except.error ()`
models the panic of `partial_cmp(..).unwrap()` in the final sort: the
comparator returns `None` as soon as a `NaN` confidence is compared, which
happens exactly when the candidate list has at least two entries and one
of them carries `NaN` (a sort of fewer than two elements performs no
comparison, and every element of a longer list is compared at least once).
The sorted list is the stable descending sort of the candidates truncated
to `max_tags_per_item`; `List.insertionSort` models Rust's stable
`sort_by`, with which it agrees on every input for a total transitive
comparator, since the stable sort is unique. -/
def generateTagsForItem (cfg : CategorizationConfig) (ctx : ItemContext) :
    Except Unit (List Tag) :=
  if cfg.enabled = false then .ok [] else
  if 2 ≤ (candidateTags cfg ctx).length ∧
      (candidateTags cfg ctx).any (fun t => !t.confidence.isNum) = true then .error ()
  else .ok (((candidateTags cfg ctx).insertionSort tagLe).take cfg.max_tags_per_item)

/-- Modelled from the spec: `check_keywords` as §4.1 words it —
`matched_count / total_keyword_count`, clamped to `[0,1]`, with a floor of
`0.33` (this is also what the unused `StringMatcher::check_keywords` in
`src/spacefeeder/src/categorization/matching.rs` computes). -/
def checkKeywordsSpec (content : String) (keywords : List String) : Option ℚ :=
  if matchedCount content keywords > 0 then
    some (qmax (qmin (qdiv (matchedCount content keywords : ℚ) (keywords.length : ℚ)) 1) (mkRat 33 100))
  else none

/-- One attempt of the spec-modelled phrase matcher: the words match here
in sequence, separated by one or more whitespace characters, with the end
of the last word at a right word boundary (a non-alphabetic character or
the end of the string). -/
def phraseAt : List (List Char) → List Char → Bool
  | [], _ => true
  | [w], cs =>
    w.isPrefixOf cs &&
      (match cs.drop w.length with
       | [] => true
       | c :: _ => !c.isAlpha)
  | w :: w2 :: ws, cs =>
    w.isPrefixOf cs &&
      (match cs.drop w.length with
       | [] => false
       | c :: tl => c.isWhitespace && phraseAt (w2 :: ws) (tl.dropWhile Char.isWhitespace))

/-- Whitespace-splitting into words (Rust `str::split_whitespace`),
written with an accumulator so that it is structurally recursive. -/
def wordsAux (cur : List Char) : List Char → List (List Char)
  | [] => if cur.isEmpty then [] else [cur.reverse]
  | c :: tl =>
    if c.isWhitespace then
      if cur.isEmpty then wordsAux [] tl else cur.reverse :: wordsAux [] tl
    else wordsAux (c :: cur) tl

/-- Scan of the spec-modelled phrase matcher: try every position whose
preceding character (if any) is non-alphabetic. -/
def phraseSearch (ws : List (List Char)) : Option Char → List Char → Bool
  | prev, cs =>
    ((match prev with
      | none => true
      | some c => !c.isAlpha) && phraseAt ws cs) ||
      (match cs with
       | [] => false
       | c :: tl => phraseSearch ws (some c) tl)

/-- Modelled from the spec (§4.1): multi-word matching requires "the exact
word sequence with whitespace allowed between words, also anchored at word
boundaries", a boundary being a non-alphabetic character or a string edge
(the behaviour of the unused `StringMatcher::matches_keyword` regex in
`src/spacefeeder/src/categorization/matching.rs`). -/
def specPhraseMatches (content keyword : String) : Bool :=
  phraseSearch (wordsAux [] keyword.data) none content.data


/-! ### Bridging lemmas for the executable arithmetic -/

theorem qmin_eq (p q : ℚ) : qmin p q = min p q := by
  rw [qmin, min_def]

theorem qmax_eq (p q : ℚ) : qmax p q = max p q := by
  rw [qmax, max_def]
  rcases le_total p q with h | h
  · rcases eq_or_lt_of_le h with rfl | hlt
    · simp
    · rw [if_pos h, if_neg (not_le.mpr hlt)]
  · rw [if_pos h]
    rcases eq_or_lt_of_le h with rfl | hlt
    · simp
    · rw [if_neg (not_le.mpr hlt)]

theorem qmul_eq (a b : ℚ) : qmul a b = a * b := by
  rw [qmul, Rat.mul_def, mkRat, dif_neg (Nat.mul_ne_zero a.den_nz b.den_nz)]

/-- Division of rationals expressed through numerators and denominators
(with the convention `x / 0 = 0` on both sides). -/
theorem div_eq_num_den (a b : ℚ) :
    a / b = ((a.num * b.den : ℤ) : ℚ) / (((a.den : ℤ) * b.num : ℤ) : ℚ) := by
  rcases eq_or_ne b 0 with rfl | hb
  · simp
  · have had : ((a.den : ℚ)) ≠ 0 := Nat.cast_ne_zero.mpr a.den_nz
    have hbd : ((b.den : ℚ)) ≠ 0 := Nat.cast_ne_zero.mpr b.den_nz
    have hbn : ((b.num : ℚ)) ≠ 0 := by
      exact_mod_cast Rat.num_ne_zero.mpr hb
    have ha' : ((a.num : ℚ)) = a * (a.den : ℚ) :=
      (div_eq_iff had).mp (Rat.num_div_den a)
    have hb' : ((b.num : ℚ)) = b * (b.den : ℚ) :=
      (div_eq_iff hbd).mp (Rat.num_div_den b)
    have hden : (((a.den : ℤ) * b.num : ℤ) : ℚ) ≠ 0 := by
      push_cast
      exact mul_ne_zero had hbn
    rw [div_eq_div_iff hb hden]
    push_cast
    rw [ha', hb']
    ring

theorem qdiv_eq (a b : ℚ) : qdiv a b = a / b := by
  rcases lt_or_le b.num 0 with hneg | hpos
  · rw [qdiv, if_pos hneg, Rat.mkRat_eq_div, div_eq_num_den a b]
    have habs : ((b.num.natAbs : ℚ)) = -((b.num : ℤ) : ℚ) := by
      rw [Int.cast_natAbs, abs_of_neg hneg]
      push_cast
      ring
    push_cast
    rw [habs, mul_neg, neg_div_neg_eq]
  · rw [qdiv, if_neg (not_lt.mpr hpos), Rat.mkRat_eq_div, div_eq_num_den a b]
    have habs : ((b.num.natAbs : ℚ)) = ((b.num : ℤ) : ℚ) := by
      rw [Int.cast_natAbs, abs_of_nonneg hpos]
    push_cast
    rw [habs]



/-! ### Character, string and lookup facts -/

theorem charOfNat_toNat {n : Nat} (h : n < 55296) : (Char.ofNat n).toNat = n := by
  have hv : n.isValidChar := Or.inl h
  rw [Char.ofNat, dif_pos hv]
  rfl

theorem lowerChar_of_not_upper {c : Char} (h : ¬(c.toNat ≥ 65 ∧ c.toNat ≤ 90)) :
    lowerChar c = c := by
  rw [lowerChar, if_neg h]

theorem lowerChar_toNat_of_upper {c : Char} (h : c.toNat ≥ 65 ∧ c.toNat ≤ 90) :
    (lowerChar c).toNat = c.toNat + 32 := by
  rw [lowerChar, if_pos h]
  exact charOfNat_toNat (by omega)

theorem lowerChar_idem (c : Char) : lowerChar (lowerChar c) = lowerChar c := by
  by_cases h : c.toNat ≥ 65 ∧ c.toNat ≤ 90
  · have ht := lowerChar_toNat_of_upper h
    exact lowerChar_of_not_upper (by omega)
  · have h0 := lowerChar_of_not_upper h
    rw [h0]
    exact h0

theorem strLower_idem (s : String) : strLower (strLower s) = strLower s := by
  rcases s with ⟨cs⟩
  simp only [strLower, List.map_map]
  congr 1
  refine List.map_congr_left ?_
  intro a _
  simp only [Function.comp_apply, lowerChar_idem]

/-- A successful association-list lookup returns a stored pair. -/
theorem mem_of_lookup_eq_some {ps : List (String × String)} {k v : String}
    (h : List.lookup k ps = some v) : (k, v) ∈ ps := by
  induction ps with
  | nil => simp [List.lookup] at h
  | cons p ps ih =>
    obtain ⟨k1, v1⟩ := p
    rw [List.lookup] at h
    cases hk : (k == k1) with
    | true =>
      rw [hk] at h
      cases h
      have hkk : k = k1 := beq_iff_eq.mp hk
      subst hkk
      exact List.mem_cons_self _ _
    | false =>
      rw [hk] at h
      exact List.mem_cons_of_mem _ (ih h)


/-! ### `check_keywords`: characterization and bounds -/

theorem matchedCount_le_length (content : String) (keywords : List String) :
    matchedCount content keywords ≤ keywords.length :=
  List.length_filter_le _ _

theorem checkKeywords_none_iff (content : String) (keywords : List String) :
    checkKeywords content keywords = none ↔ matchedCount content keywords = 0 := by
  by_cases h : matchedCount content keywords > 0
  · rw [checkKeywords, if_pos h]
    simp only [reduceCtorEq, false_iff]
    omega
  · rw [checkKeywords, if_neg h]
    simp only [true_iff]
    omega

theorem checkKeywords_some_bounds {content : String} {keywords : List String} {q : ℚ}
    (h : checkKeywords content keywords = some q) :
    q = qmin (qdiv (matchedCount content keywords : ℚ) (qmin (keywords.length : ℚ) 3)) 1 ∧
      1/3 ≤ q ∧ q ≤ 1 := by
  by_cases hm : matchedCount content keywords > 0
  · rw [checkKeywords, if_pos hm] at h
    have hq : q = qmin (qdiv (matchedCount content keywords : ℚ)
        (qmin (keywords.length : ℚ) 3)) 1 := (Option.some_injective _ h).symm
    refine ⟨hq, ?_, ?_⟩
    · rw [hq, qmin_eq, qdiv_eq, qmin_eq]
      have hm1 : (1 : ℚ) ≤ (matchedCount content keywords : ℚ) := by
        exact_mod_cast hm
      have hlen : (1 : ℚ) ≤ (keywords.length : ℚ) := by
        have := matchedCount_le_length content keywords
        have : 1 ≤ keywords.length := by omega
        exact_mod_cast this
      have hd : (0 : ℚ) < min (keywords.length : ℚ) 3 :=
        lt_min (by linarith) (by norm_num)
      have hd3 : min (keywords.length : ℚ) 3 ≤ 3 := min_le_right _ _
      refine le_min ?_ (by norm_num)
      rw [div_le_div_iff₀ (by norm_num : (0:ℚ) < 3) hd]
      nlinarith
    · rw [hq, qmin_eq]
      exact min_le_right _ _
  · rw [checkKeywords, if_neg hm] at h
    cases h

/-- C1, amended: the `check_keywords` used by the classification pipeline
(`CategorizationEngine::check_keywords`) returns `none` exactly when zero
keywords match; otherwise it returns the matched count divided by
`min(total keyword count, 3)`, capped at `1`, so every returned confidence
lies in `[1/3, 1]` — in particular it is at least `0.33`. -/
theorem check_keywords_formula_and_floor (content : String) (keywords : List String) :
    (checkKeywords content keywords = none ↔ matchedCount content keywords = 0) ∧
    (∀ q : ℚ, checkKeywords content keywords = some q →
      q = qmin (qdiv (matchedCount content keywords : ℚ) (qmin (keywords.length : ℚ) 3)) 1 ∧
        1/3 ≤ q ∧ (33/100 : ℚ) ≤ q ∧ q ≤ 1) := by
  refine ⟨checkKeywords_none_iff content keywords, ?_⟩
  intro q hq
  obtain ⟨hfor, hlo, hhi⟩ := checkKeywords_some_bounds hq
  exact ⟨hfor, hlo, by linarith, hhi⟩

theorem check_keywords_formula_and_floor_witness :
    (1 : ℚ)/3 ≤ mkRat 2 3 ∧ (33/100 : ℚ) ≤ mkRat 2 3 ∧ (mkRat 2 3 : ℚ) ≤ 1 := by
  have h := (check_keywords_formula_and_floor "a b" ["a", "b", "c", "d", "e"]).2
    (mkRat 2 3) (by decide)
  exact ⟨h.2.1, h.2.2.1, h.2.2.2⟩

/-- C1 counterexample: on the content `"a b"` and the five keywords
`a`..`e`, exactly two keywords match, the pipeline's `check_keywords`
returns `2/3` (the divisor is `min(5, 3) = 3`), while the spec's stated
formula (`matched / total`, clamped, floored at `0.33`) yields `2/5`. -/
theorem check_keywords_spec_formula_differs :
    checkKeywords "a b" ["a", "b", "c", "d", "e"] = some (mkRat 2 3) ∧
    checkKeywordsSpec "a b" ["a", "b", "c", "d", "e"] = some (mkRat 2 5) ∧
    (mkRat 2 3 : ℚ) ≠ mkRat 2 5 := by
  refine ⟨by decide, by decide, by decide⟩


/-! ### Multi-word and single-word matching claims -/

/-- C5, amended: in the matcher used by the pipeline, a keyword containing
a space is matched by plain substring containment, always — there is no
boundary anchoring, no whitespace flexibility between words, and no
compilation fallback.  The conjuncts exhibit the divergence from the
spec-modelled boundary-aware matcher on a two-space content. -/
theorem multiword_matching_is_substring :
    (∀ content keyword : String, keyword.data.contains ' ' = true →
      matchesKeyword content keyword = strContains content keyword) ∧
    matchesKeyword "artificial  intelligence" "artificial intelligence" = false ∧
    specPhraseMatches "artificial  intelligence" "artificial intelligence" = true := by
  refine ⟨?_, by decide, by decide⟩
  intro content keyword h
  rw [matchesKeyword, if_pos h]

theorem multiword_matching_is_substring_witness :
    matchesKeyword "a b c" "b c" = strContains "a b c" "b c" :=
  multiword_matching_is_substring.1 "a b c" "b c" (by decide)

/-- C5 counterexample: `"artificial intelligence"` is a plain substring of
`"superartificial intelligence"`, so the pipeline's matcher accepts it,
while the spec's boundary-anchored phrase matching (the occurrence is
preceded by the letter `r`) rejects it. -/
theorem multiword_boundary_counterexample :
    matchesKeyword "superartificial intelligence" "artificial intelligence" = true ∧
    specPhraseMatches "superartificial intelligence" "artificial intelligence" = false := by
  refine ⟨by decide, by decide⟩

/-- C6, amended: the single-word keyword `ai` does not match the concrete
contents `"i said hello"`, `"please wait here"` and
`"maintain the system"` (the occurrences inside `said`, `wait` and
`maintain` fail the boundary check), and does match `"ai is powerful"`
and `"the ai system"`. -/
theorem single_word_boundary_examples :
    matchesKeyword "i said hello" "ai" = false ∧
    matchesKeyword "please wait here" "ai" = false ∧
    matchesKeyword "maintain the system" "ai" = false ∧
    matchesKeyword "ai is powerful" "ai" = true ∧
    matchesKeyword "the ai system" "ai" = true := by
  refine ⟨by decide, by decide, by decide, by decide, by decide⟩

/-- C6 counterexample: the content `"ai said"` contains `"said"`, yet
matching the keyword `ai` against it returns true — its first occurrence
is the standalone word at the start, so the universally quantified claim
(false for every content containing `said`) fails. -/
theorem single_word_boundary_counterexample :
    strContains "ai said" "said" = true ∧ matchesKeyword "ai said" "ai" = true := by
  refine ⟨by decide, by decide⟩


/-! ### `author_with_content` rules -/

/-- C2, amended: an `author_with_content` rule produces candidate tags if
and only if the item's author is present and lower-cased contains some
pattern, `required_keywords` is non-empty, ALL required keywords match the
lower-cased title+description, no `exclude_patterns` entry matches that
content, and the rule declares at least one output tag (`tag` non-empty or
`tags` non-empty); in particular, with empty `required_keywords` the rule
never produces any tag. -/
theorem ruleTagList_isEmpty_false_iff (r : TagRule) :
    (ruleTagList r).isEmpty = false ↔ (r.tag ≠ "" ∨ r.tags ≠ []) := by
  rw [ruleTagList]
  by_cases htag : r.tag ≠ ""
  · rw [if_pos htag]
    simp [htag]
  · rw [if_neg htag]
    simp only [List.nil_append]
    constructor
    · intro h
      refine Or.inr ?_
      intro hnil
      rw [hnil] at h
      cases h
    · intro h
      rcases h with h | h
      · exact absurd h htag
      · rcases hl : r.tags with _ | ⟨x, xs⟩
        · exact absurd hl h
        · rfl

theorem author_with_content_fires_iff (r : TagRule) (title : String)
    (description link author : Option String) (slug : String)
    (hty : r.rule_type = "author_with_content") :
    (applyRule r title description link author slug).isSome = true ↔
      ((∃ a, author = some a ∧
          r.patterns.any (fun p => strContains (strLower a) (strLower p)) = true) ∧
        r.required_keywords ≠ [] ∧
        (∀ kw ∈ r.required_keywords,
          matchesKeyword (ruleContent title description) (strLower kw) = true) ∧
        (∀ p ∈ r.exclude_patterns,
          matchesKeyword (ruleContent title description) (strLower p) = false) ∧
        (r.tag ≠ "" ∨ r.tags ≠ [])) := by
  rw [applyRule]
  by_cases hexcl : r.exclude_patterns.any
      (fun p => matchesKeyword (ruleContent title description) (strLower p)) = true
  · rw [if_pos hexcl]
    simp only [Option.isSome_none, Bool.false_eq_true, false_iff]
    rintro ⟨-, -, -, hnone, -⟩
    obtain ⟨p, hp, hmp⟩ := List.any_eq_true.mp hexcl
    rw [hnone p hp] at hmp
    cases hmp
  · rw [if_neg hexcl]
    have hnoexcl : ∀ p ∈ r.exclude_patterns,
        matchesKeyword (ruleContent title description) (strLower p) = false := by
      intro p hp
      by_contra hne
      exact hexcl (List.any_eq_true.mpr ⟨p, hp, by simpa using hne⟩)
    have hmatchiff : ruleMatches r title description link author slug = true ↔
        ((∃ a, author = some a ∧
            r.patterns.any (fun p => strContains (strLower a) (strLower p)) = true) ∧
          r.required_keywords ≠ [] ∧
          (∀ kw ∈ r.required_keywords,
            matchesKeyword (ruleContent title description) (strLower kw) = true)) := by
      rw [ruleMatches.eq_def]
      simp only [hty, String.reduceEq, reduceIte]
      cases author with
      | none => simp
      | some a =>
        constructor
        · intro hm
          by_cases hauth : (r.patterns.any fun p => strContains (strLower a) (strLower p))
              = true
          · simp only [hauth, reduceIte] at hm
            by_cases hreq : r.required_keywords.isEmpty = true
            · rw [if_pos hreq] at hm
              cases hm
            · rw [if_neg hreq] at hm
              refine ⟨⟨a, rfl, hauth⟩, ?_, fun kw hkw => List.all_eq_true.mp hm kw hkw⟩
              intro hnil
              rw [hnil] at hreq
              exact hreq rfl
          · simp only [hauth, reduceIte, Bool.false_eq_true] at hm
        · rintro ⟨⟨a2, ha2, hauth⟩, hreqne, hall⟩
          cases ha2
          simp only [hauth, reduceIte]
          rw [if_neg ?_]
          · exact List.all_eq_true.mpr hall
          · intro hemp
            exact hreqne (List.isEmpty_iff.mp hemp)
    constructor
    · intro hsome
      by_cases hm : ruleMatches r title description link author slug = true
      · rw [if_pos hm] at hsome
        by_cases hemp : (ruleTagList r).isEmpty = true
        · rw [if_pos hemp] at hsome
          simp at hsome
        · obtain ⟨h1, h2, h3⟩ := hmatchiff.mp hm
          refine ⟨h1, h2, h3, hnoexcl, ?_⟩
          exact (ruleTagList_isEmpty_false_iff r).mp (by simpa using hemp)
      · rw [if_neg hm] at hsome
        simp at hsome
    · rintro ⟨h1, h2, h3, -, htag⟩
      rw [if_pos (hmatchiff.mpr ⟨h1, h2, h3⟩), if_neg ?_]
      · rfl
      · rw [(ruleTagList_isEmpty_false_iff r).mpr htag]
        simp

/-- C2 counterexample: a rule of type `author_with_content` whose pattern
substring-matches the author and whose single required keyword matches the
content — all conditions of the claim as stated — but which declares no
output tag (`tag = ""`, `tags = []`): `apply_rule` returns `None` and no
candidate tag is produced. -/
theorem author_with_content_counterexample :
    applyRule (TagRule.mk "author_with_content" ["x"] "" [] (F.num (mkRat 1 2)) [] none ["y"] [])
      "y" none none (some "x") "s" = none ∧
    strContains (strLower "x") (strLower "x") = true ∧
    (["y"] : List String) ≠ [] ∧
    (∀ kw ∈ (["y"] : List String),
      matchesKeyword (ruleContent "y" none) (strLower kw) = true) := by
  refine ⟨by decide, by decide, by decide, by decide⟩

theorem author_with_content_fires_iff_witness :
    (applyRule
      (TagRule.mk "author_with_content" ["x"] "t" [] (F.num (mkRat 1 2)) [] none ["y"] [])
      "y" none none (some "x") "s").isSome = true :=
  (author_with_content_fires_iff
    (TagRule.mk "author_with_content" ["x"] "t" [] (F.num (mkRat 1 2)) [] none ["y"] [])
    "y" none none (some "x") "s" rfl).mpr
    ⟨⟨"x", rfl, by decide⟩, by decide, by decide, by decide, Or.inl (by decide)⟩


/-! ### Membership facts for the pipeline steps -/

theorem mem_rssStep (cfg : CategorizationConfig) :
    ∀ (cats seen : List String) (t : Tag), t ∈ (rssStep cfg cats seen).1 →
      ∃ c ∈ cats, t = Tag.mk (normalizeTag cfg c) (F.num (mkRat 9 10)) TagSource.Feed := by
  intro cats
  induction cats with
  | nil =>
    intro seen t h
    simp [rssStep] at h
  | cons c cs ih =>
    intro seen t h
    rw [rssStep] at h
    by_cases hn : normalizeTag cfg c ∈ seen
    · rw [if_pos hn] at h
      obtain ⟨c2, hc2, he⟩ := ih seen t h
      exact ⟨c2, List.mem_cons_of_mem _ hc2, he⟩
    · rw [if_neg hn] at h
      rcases List.mem_cons.mp h with he | h2
    -- head: the freshly pushed protocol tag
      · exact ⟨c, List.mem_cons_self _ _, he⟩
      · obtain ⟨c2, hc2, he⟩ := ih _ t h2
        exact ⟨c2, List.mem_cons_of_mem _ hc2, he⟩

theorem mem_pushTags (cfg : CategorizationConfig) (excluded : List String) :
    ∀ (ts : List Tag) (seen : List String) (t : Tag), t ∈ (pushTags cfg excluded ts seen).1 →
      t.name ∉ excluded ∧
        ∃ t0 ∈ ts, t = Tag.mk (normalizeTag cfg t0.name) t0.confidence t0.source := by
  intro ts
  induction ts with
  | nil =>
    intro seen t h
    simp [pushTags] at h
  | cons t0 ts ih =>
    intro seen t h
    rw [pushTags] at h
    by_cases hc : normalizeTag cfg t0.name ∉ excluded ∧ normalizeTag cfg t0.name ∉ seen
    · rw [if_pos hc] at h
      rcases List.mem_cons.mp h with he | h2
      · subst he
        exact ⟨hc.1, t0, List.mem_cons_self _ _, rfl⟩
      · obtain ⟨hex, t1, ht1, he⟩ := ih _ t h2
        exact ⟨hex, t1, List.mem_cons_of_mem _ ht1, he⟩
    · rw [if_neg hc] at h
      obtain ⟨hex, t1, ht1, he⟩ := ih _ t h
      exact ⟨hex, t1, List.mem_cons_of_mem _ ht1, he⟩

theorem mem_ruleStep (cfg : CategorizationConfig) (ctx : ItemContext) (excluded : List String) :
    ∀ (rs : List TagRule) (seen : List String) (t : Tag),
      t ∈ (ruleStep cfg ctx excluded rs seen).1 →
      t.name ∉ excluded ∧
        ∃ r ∈ rs, r.rule_type ≠ "exclude_if" ∧
          ∃ ts, applyRule r ctx.title ctx.description ctx.link ctx.author ctx.feed_slug
              = some ts ∧
            ∃ t0 ∈ ts, t = Tag.mk (normalizeTag cfg t0.name) t0.confidence t0.source := by
  intro rs
  induction rs with
  | nil =>
    intro seen t h
    simp [ruleStep] at h
  | cons r rs ih =>
    intro seen t h
    rw [ruleStep] at h
    by_cases hty : r.rule_type = "exclude_if"
    · rw [if_pos hty] at h
      obtain ⟨hex, r1, hr1, hrest⟩ := ih _ t h
      exact ⟨hex, r1, List.mem_cons_of_mem _ hr1, hrest⟩
    · rw [if_neg hty] at h
      cases happ : applyRule r ctx.title ctx.description ctx.link ctx.author ctx.feed_slug with
      | none =>
        rw [happ] at h
        obtain ⟨hex, r1, hr1, hrest⟩ := ih _ t h
        exact ⟨hex, r1, List.mem_cons_of_mem _ hr1, hrest⟩
      | some matched =>
        rw [happ] at h
        rcases List.mem_append.mp h with h1 | h2
        · obtain ⟨hex, t0, ht0, he⟩ := mem_pushTags cfg excluded matched seen t h1
          exact ⟨hex, r, List.mem_cons_self _ _, hty, matched, happ, t0, ht0, he⟩
        · obtain ⟨hex, r1, hr1, hrest⟩ := ih _ t h2
          exact ⟨hex, r1, List.mem_cons_of_mem _ hr1, hrest⟩

theorem mem_keywordStep (cfg : CategorizationConfig) (ctx : ItemContext)
    (excluded : List String) :
    ∀ (tds : List TagDefinition) (seen : List String) (t : Tag),
      t ∈ (keywordStep cfg ctx excluded tds seen).1 →
      t.name ∉ excluded ∧
        ∃ td ∈ tds, ∃ q : ℚ,
          checkKeywords (ctx.title ++ " " ++ ctx.description.getD "") td.keywords = some q ∧
            t = Tag.mk (normalizeTag cfg td.name) (F.num q) TagSource.Keyword := by
  intro tds
  induction tds with
  | nil =>
    intro seen t h
    simp [keywordStep] at h
  | cons td tds ih =>
    intro seen t h
    rw [keywordStep] at h
    cases hck : checkKeywords (ctx.title ++ " " ++ ctx.description.getD "") td.keywords with
    | none =>
      simp only [hck] at h
      obtain ⟨hex, td1, htd1, hrest⟩ := ih _ t h
      exact ⟨hex, td1, List.mem_cons_of_mem _ htd1, hrest⟩
    | some conf =>
      simp only [hck] at h
      by_cases hth : F.geB (F.num conf) cfg.confidence_threshold = true
      · rw [if_pos hth] at h
        by_cases hc : normalizeTag cfg td.name ∉ excluded ∧ normalizeTag cfg td.name ∉ seen
        · rw [if_pos hc] at h
          rcases List.mem_cons.mp h with he | h2
          · subst he
            exact ⟨hc.1, td, List.mem_cons_self _ _, conf, hck, rfl⟩
          · obtain ⟨hex, td1, htd1, hrest⟩ := ih _ t h2
            exact ⟨hex, td1, List.mem_cons_of_mem _ htd1, hrest⟩
        · rw [if_neg hc] at h
          obtain ⟨hex, td1, htd1, hrest⟩ := ih _ t h
          exact ⟨hex, td1, List.mem_cons_of_mem _ htd1, hrest⟩
      · rw [if_neg hth] at h
        obtain ⟨hex, td1, htd1, hrest⟩ := ih _ t h
        exact ⟨hex, td1, List.mem_cons_of_mem _ htd1, hrest⟩

theorem mem_hintStep (cfg : CategorizationConfig) (ctx : ItemContext) (excluded : List String) :
    ∀ (hs seen : List String) (t : Tag), t ∈ (hintStep cfg ctx excluded hs seen).1 →
      t.name ∉ excluded ∧ t.name ∈ hs ∧
        t.confidence = F.num (mkRat 1 4) ∧ t.source = TagSource.Manual := by
  intro hs
  induction hs with
  | nil =>
    intro seen t h
    simp [hintStep] at h
  | cons hd hs ih =>
    intro seen t h
    rw [hintStep] at h
    by_cases hc : hd ∉ seen ∧ hd ∉ excluded
    · rw [if_pos hc] at h
      cases hfind : cfg.tags.find? (fun td => normalizeTag cfg td.name == hd) with
      | none =>
        simp only [hfind] at h
        obtain ⟨hex, hmem, hrest⟩ := ih _ t h
        exact ⟨hex, List.mem_cons_of_mem _ hmem, hrest⟩
      | some td =>
        simp only [hfind] at h
        by_cases hke : td.keywords.isEmpty = true
        · rw [if_pos hke] at h
          obtain ⟨hex, hmem, hrest⟩ := ih _ t h
          exact ⟨hex, List.mem_cons_of_mem _ hmem, hrest⟩
        · rw [if_neg hke] at h
          by_cases hany : td.keywords.any
              (fun kw => matchesKeyword (ruleContent ctx.title ctx.description) (strLower kw))
              = true
          · rw [if_pos hany] at h
            rcases List.mem_cons.mp h with he | h2
            · subst he
              exact ⟨hc.2, List.mem_cons_self _ _, rfl, rfl⟩
            · obtain ⟨hex, hmem, hrest⟩ := ih _ t h2
              exact ⟨hex, List.mem_cons_of_mem _ hmem, hrest⟩
          · rw [if_neg hany] at h
            obtain ⟨hex, hmem, hrest⟩ := ih _ t h
            exact ⟨hex, List.mem_cons_of_mem _ hmem, hrest⟩
    · rw [if_neg hc] at h
      obtain ⟨hex, hmem, hrest⟩ := ih _ t h
      exact ⟨hex, List.mem_cons_of_mem _ hmem, hrest⟩

theorem mem_excludedFrom {title : String} {description : Option String} :
    ∀ (rs : List TagRule) (r : TagRule), r ∈ rs → r.rule_type = "exclude_if" →
      (∃ p ∈ r.patterns,
        matchesKeyword (ruleContent title description) (strLower p) = true) →
      ∀ x ∈ r.exclude_tags, x ∈ excludedFrom title description rs := by
  intro rs
  induction rs with
  | nil =>
    intro r hr
    cases hr
  | cons r0 rs ih =>
    intro r hr hty hmatch x hx
    rw [excludedFrom]
    rcases List.mem_cons.mp hr with rfl | hr2
    · have hcond : r.rule_type = "exclude_if" ∧
          (r.patterns.any
            (fun p => matchesKeyword (ruleContent title description) (strLower p))) = true := by
        refine ⟨hty, List.any_eq_true.mpr ?_⟩
        obtain ⟨p, hp, hm⟩ := hmatch
        exact ⟨p, hp, hm⟩
      refine List.mem_append_left _ ?_
      rw [if_pos hcond]
      exact hx
    · exact List.mem_append_right _ (ih r hr2 hty hmatch x hx)

theorem boostTag_name (hints : List String) (t : Tag) : (boostTag hints t).name = t.name := by
  rw [boostTag]
  split <;> rfl

theorem boostTag_source (hints : List String) (t : Tag) :
    (boostTag hints t).source = t.source := by
  rw [boostTag]
  split <;> rfl

theorem boostTag_conf (hints : List String) (t : Tag) :
    (boostTag hints t).confidence =
      if t.name ∈ hints then
        F.fmin (F.mul t.confidence (F.num (mkRat 6 5))) (F.num (mkRat 19 20))
      else t.confidence := by
  rw [boostTag]
  split <;> simp_all

theorem mem_candidateTags_cases {cfg : CategorizationConfig} {ctx : ItemContext} {t : Tag}
    (h : t ∈ candidateTags cfg ctx) :
    (∃ t0, t = boostTag (feedTagHints cfg ctx) t0 ∧
      (t0 ∈ (rssPart cfg ctx).1 ∨ t0 ∈ (rulePart cfg ctx).1 ∨ t0 ∈ (keywordPart cfg ctx).1)) ∨
      t ∈ (hintPart cfg ctx).1 := by
  rw [candidateTags] at h
  rcases List.mem_append.mp h with h1 | h2
  · obtain ⟨t0, ht0, he⟩ := List.mem_map.mp h1
    rcases List.mem_append.mp ht0 with h3 | h4
    · rcases List.mem_append.mp h3 with h5 | h6
      · exact Or.inl ⟨t0, he.symm, Or.inl h5⟩
      · exact Or.inl ⟨t0, he.symm, Or.inr (Or.inl h6)⟩
    · exact Or.inl ⟨t0, he.symm, Or.inr (Or.inr h4)⟩
  · exact Or.inr h2

theorem mem_keywordPart {cfg : CategorizationConfig} {ctx : ItemContext} {t : Tag}
    (h : t ∈ (keywordPart cfg ctx).1) :
    t.name ∉ excludedPart cfg ctx ∧
      ∃ td ∈ cfg.tags, ∃ q : ℚ,
        checkKeywords (ctx.title ++ " " ++ ctx.description.getD "") td.keywords = some q ∧
          t = Tag.mk (normalizeTag cfg td.name) (F.num q) TagSource.Keyword := by
  rw [keywordPart] at h
  by_cases hauto : cfg.auto_tag_new_articles = true
  · rw [if_pos hauto] at h
    exact mem_keywordStep cfg ctx _ cfg.tags _ t h
  · rw [if_neg hauto] at h
    simp at h


/-! ### C3: `exclude_if` suppression -/

/-- C3 (confirmed): if some `exclude_if` rule has a pattern that matches
the lower-cased title+description, then no tag whose normalized name is in
that rule's `exclude_tags` is emitted by rule-based tagging (step 3),
keyword-based tagging (step 4), or feed-hint admission (step 6) — even
when content rules, keyword definitions and feed tags all support it. -/
theorem exclude_if_suppresses (cfg : CategorizationConfig) (ctx : ItemContext)
    (r : TagRule) (name : String) (hr : r ∈ cfg.rules) (hty : r.rule_type = "exclude_if")
    (hmatch : ∃ p ∈ r.patterns,
      matchesKeyword (ruleContent ctx.title ctx.description) (strLower p) = true)
    (hname : name ∈ r.exclude_tags) :
    ∀ t : Tag,
      (t ∈ (rulePart cfg ctx).1 ∨ t ∈ (keywordPart cfg ctx).1 ∨ t ∈ (hintPart cfg ctx).1) →
      t.name ≠ name := by
  have hex : name ∈ excludedPart cfg ctx :=
    mem_excludedFrom cfg.rules r hr hty hmatch name hname
  intro t ht heq
  rcases ht with h | h | h
  · rw [rulePart] at h
    exact absurd (heq ▸ hex) (mem_ruleStep cfg ctx _ cfg.rules _ t h).1
  · exact absurd (heq ▸ hex) (mem_keywordPart h).1
  · rw [hintPart] at h
    exact absurd (heq ▸ hex) (mem_hintStep cfg ctx _ _ _ t h).1

/-- A configuration with an `exclude_if` rule for `x`, plus a content rule,
a keyword definition and a feed tag all supporting `x`. -/
def weeklyLinksConfig : CategorizationConfig :=
  CategorizationConfig.mk true true 5 (F.num (mkRat 3 10))
    [TagDefinition.mk "x" "" ["t"]]
    [TagRule.mk "exclude_if" ["w"] "" [] (F.num 1) [] none [] ["x"],
     TagRule.mk "title_contains" ["t"] "x" [] (F.num (mkRat 9 10)) [] none [] [],
     TagRule.mk "title_contains" ["t"] "y" [] (F.num (mkRat 4 5)) [] none [] []]
    []

def weeklyLinksItem : ItemContext :=
  ItemContext.mk "w t" none none none "s" (some ["x"]) none

theorem exclude_if_suppresses_witness :
    (Tag.mk "y" (F.num (mkRat 4 5)) TagSource.Rule).name ≠ "x" :=
  exclude_if_suppresses weeklyLinksConfig weeklyLinksItem
    (TagRule.mk "exclude_if" ["w"] "" [] (F.num 1) [] none [] ["x"]) "x"
    (by decide) rfl ⟨"w", by decide, by decide⟩ (by decide)
    (Tag.mk "y" (F.num (mkRat 4 5)) TagSource.Rule) (Or.inl (by decide))

/-! ### Confidence provenance of candidate tags -/

theorem applyRule_mem {r : TagRule} {title : String} {description link author : Option String}
    {slug : String} {ts : List Tag} {t0 : Tag}
    (h : applyRule r title description link author slug = some ts) (ht : t0 ∈ ts) :
    t0.confidence = r.confidence ∧ t0.source = TagSource.Rule := by
  rw [applyRule] at h
  split at h
  · cases h
  · split at h
    · split at h
      · cases h
      · cases h
        rw [ruleTagList] at ht
        rcases List.mem_append.mp ht with h1 | h2
        · by_cases htag : r.tag ≠ ""
          · rw [if_pos htag] at h1
            rcases List.mem_cons.mp h1 with rfl | h3
            · exact ⟨rfl, rfl⟩
            · cases h3
          · rw [if_neg htag] at h1
            cases h1
        · obtain ⟨x, -, he⟩ := List.mem_map.mp h2
          rw [← he]
          exact ⟨rfl, rfl⟩
    · cases h

theorem mem_candidateTags_conf {cfg : CategorizationConfig} {ctx : ItemContext} {t : Tag}
    (h : t ∈ candidateTags cfg ctx) :
    ∃ c0 : F,
      (t.confidence = c0 ∨
        t.confidence = F.fmin (F.mul c0 (F.num (mkRat 6 5))) (F.num (mkRat 19 20))) ∧
      (c0 = F.num (mkRat 9 10) ∨ (∃ r ∈ cfg.rules, c0 = r.confidence) ∨
        (∃ q : ℚ, c0 = F.num q ∧ 1/3 ≤ q ∧ q ≤ 1) ∨ c0 = F.num (mkRat 1 4)) := by
  rcases mem_candidateTags_cases h with ⟨t0, heq, hsrc⟩ | hhint
  · have hfirst : t.confidence = t0.confidence ∨
        t.confidence =
          F.fmin (F.mul t0.confidence (F.num (mkRat 6 5))) (F.num (mkRat 19 20)) := by
      rw [heq, boostTag_conf]
      by_cases hmem : t0.name ∈ feedTagHints cfg ctx
      · rw [if_pos hmem]
        exact Or.inr rfl
      · rw [if_neg hmem]
        exact Or.inl rfl
    refine ⟨t0.confidence, hfirst, ?_⟩
    rcases hsrc with h5 | h6 | h7
    · rw [rssPart] at h5
      obtain ⟨c, -, he⟩ := mem_rssStep cfg _ _ t0 h5
      rw [he]
      exact Or.inl rfl
    · rw [rulePart] at h6
      obtain ⟨-, r, hrmem, -, ts, happ, t1, ht1, he⟩ := mem_ruleStep cfg ctx _ cfg.rules _ t0 h6
      obtain ⟨hcnf, -⟩ := applyRule_mem happ ht1
      rw [he]
      exact Or.inr (Or.inl ⟨r, hrmem, hcnf⟩)
    · obtain ⟨-, td, htd, q, hck, he⟩ := mem_keywordPart h7
      rw [he]
      obtain ⟨-, hlo, hhi⟩ := checkKeywords_some_bounds hck
      exact Or.inr (Or.inr (Or.inl ⟨q, rfl, hlo, hhi⟩))
  · rw [hintPart] at hhint
    obtain ⟨-, -, hcnf, -⟩ := mem_hintStep cfg ctx _ _ _ t hhint
    exact ⟨F.num (mkRat 1 4), Or.inl hcnf, Or.inr (Or.inr (Or.inr rfl))⟩

theorem mem_candidates_of_generate_ok {cfg : CategorizationConfig} {ctx : ItemContext}
    {out : List Tag} (hok : generateTagsForItem cfg ctx = .ok out) :
    ∀ t ∈ out, t ∈ candidateTags cfg ctx := by
  rw [generateTagsForItem] at hok
  by_cases hen : cfg.enabled = false
  · rw [if_pos hen] at hok
    cases hok
    intro t ht
    cases ht
  · rw [if_neg hen] at hok
    split at hok
    · cases hok
    · cases hok
      intro t ht
      exact (List.mem_insertionSort tagLe).mp (List.mem_of_mem_take ht)


/-! ### C7 and C9: confidence range and absence of panics -/

theorem boost_num_bound {q : ℚ} (h0 : 0 ≤ q) (_h1 : q ≤ 1) :
    ∃ q2 : ℚ, F.fmin (F.mul (F.num q) (F.num (mkRat 6 5))) (F.num (mkRat 19 20)) = F.num q2 ∧
      0 ≤ q2 ∧ q2 ≤ 1 := by
  refine ⟨qmin (qmul q (mkRat 6 5)) (mkRat 19 20), rfl, ?_, ?_⟩
  · rw [qmin_eq, qmul_eq]
    have h65 : (0 : ℚ) ≤ mkRat 6 5 := by decide
    have h1920 : (0 : ℚ) ≤ mkRat 19 20 := by decide
    exact le_min (mul_nonneg h0 h65) h1920
  · rw [qmin_eq]
    have h1920 : (mkRat 19 20 : ℚ) ≤ 1 := by decide
    exact le_trans (min_le_right _ _) h1920

/-- C7, amended: for every configuration whose rule confidences are
genuine numbers in `[0,1]` and every item, every tag returned by
`generate_tags_for_item` has a confidence in `[0,1]`.  (Rule confidences
are copied into tags unclamped, so the hypothesis on the configuration is
necessary.) -/
theorem generate_conf_in_unit_interval (cfg : CategorizationConfig) (ctx : ItemContext)
    (out : List Tag) (t : Tag)
    (hrules : ∀ r ∈ cfg.rules, ∃ q : ℚ, r.confidence = F.num q ∧ 0 ≤ q ∧ q ≤ 1)
    (hok : generateTagsForItem cfg ctx = .ok out) (ht : t ∈ out) :
    ∃ q : ℚ, t.confidence = F.num q ∧ 0 ≤ q ∧ q ≤ 1 := by
  have hcand := mem_candidates_of_generate_ok hok t ht
  obtain ⟨c0, hor, hcases⟩ := mem_candidateTags_conf hcand
  have hc0 : ∃ q : ℚ, c0 = F.num q ∧ 0 ≤ q ∧ q ≤ 1 := by
    rcases hcases with h | ⟨r, hr, he⟩ | ⟨q, he, hlo, hhi⟩ | h
    · exact ⟨mkRat 9 10, h, by decide, by decide⟩
    · obtain ⟨q, hq, h0, h1⟩ := hrules r hr
      exact ⟨q, he ▸ hq, h0, h1⟩
    · exact ⟨q, he, by linarith, hhi⟩
    · exact ⟨mkRat 1 4, h, by decide, by decide⟩
  obtain ⟨q, hq, h0, h1⟩ := hc0
  rcases hor with he | he
  · exact ⟨q, he.trans hq, h0, h1⟩
  · rw [hq] at he
    obtain ⟨q2, he2, h02, h12⟩ := boost_num_bound h0 h1
    exact ⟨q2, he.trans he2, h02, h12⟩

/-- A configuration whose single rule carries confidence `1.5`. -/
def unclampedConfig : CategorizationConfig :=
  CategorizationConfig.mk true false 5 (F.num (mkRat 3 10)) []
    [TagRule.mk "title_contains" ["a"] "x" [] (F.num (mkRat 3 2)) [] none [] []] []

/-- The same configuration with an in-range confidence `0.8`. -/
def clampedConfig : CategorizationConfig :=
  CategorizationConfig.mk true false 5 (F.num (mkRat 3 10)) []
    [TagRule.mk "title_contains" ["a"] "x" [] (F.num (mkRat 4 5)) [] none [] []] []

def letterItem : ItemContext := ItemContext.mk "a" none none none "s" none none

/-- C7 counterexample: a configuration whose rule confidence is `1.5`
produces a tag with confidence `1.5 > 1` — the engine never clamps rule
confidences. -/
theorem generate_conf_counterexample :
    generateTagsForItem unclampedConfig letterItem =
      .ok [Tag.mk "x" (F.num (mkRat 3 2)) TagSource.Rule] ∧ ¬((mkRat 3 2 : ℚ) ≤ 1) := by
  refine ⟨by decide, by decide⟩

theorem generate_conf_in_unit_interval_witness :
    ∃ q : ℚ, (Tag.mk "x" (F.num (mkRat 4 5)) TagSource.Rule).confidence = F.num q ∧
      0 ≤ q ∧ q ≤ 1 :=
  generate_conf_in_unit_interval clampedConfig letterItem
    [Tag.mk "x" (F.num (mkRat 4 5)) TagSource.Rule]
    (Tag.mk "x" (F.num (mkRat 4 5)) TagSource.Rule)
    (by
      intro r hr
      cases List.mem_singleton.mp hr
      exact ⟨mkRat 4 5, rfl, by decide, by decide⟩)
    (by decide) (by decide)

theorem candidate_conf_isNum {cfg : CategorizationConfig} {ctx : ItemContext}
    (hrules : ∀ r ∈ cfg.rules, r.confidence.isNum = true) :
    ∀ t ∈ candidateTags cfg ctx, t.confidence.isNum = true := by
  intro t ht
  obtain ⟨c0, hor, hcases⟩ := mem_candidateTags_conf ht
  have hc0 : c0.isNum = true := by
    rcases hcases with h | ⟨r, hr, he⟩ | ⟨q, he, -, -⟩ | h
    · rw [h]
      rfl
    · rw [he]
      exact hrules r hr
    · rw [he]
      rfl
    · rw [h]
      rfl
  rcases hor with he | he
  · rw [he]
    exact hc0
  · rw [he]
    cases c0 with
    | num q => rfl
    | nan => cases hc0

/-- C9, amended: for every configuration whose rule confidences are
genuine (non-`NaN`) numbers, classification completes without a panic:
`generate_tags_for_item` returns a result and the confidence comparison of
the final sort never fails. -/
theorem generate_ok_of_num_confidences (cfg : CategorizationConfig) (ctx : ItemContext)
    (hrules : ∀ r ∈ cfg.rules, r.confidence.isNum = true) :
    ∃ out, generateTagsForItem cfg ctx = .ok out := by
  by_cases hen : cfg.enabled = false
  · exact ⟨[], by rw [generateTagsForItem, if_pos hen]⟩
  · have hany : (candidateTags cfg ctx).any (fun t => !t.confidence.isNum) = false := by
      by_contra hne
      have htt : (candidateTags cfg ctx).any (fun t => !t.confidence.isNum) = true := by
        rcases Bool.eq_false_or_eq_true
            ((candidateTags cfg ctx).any (fun t => !t.confidence.isNum)) with h | h
        · exact h
        · exact absurd h hne
      obtain ⟨t, htmem, htnan⟩ := List.any_eq_true.mp htt
      rw [candidate_conf_isNum hrules t htmem] at htnan
      cases htnan
    refine ⟨((candidateTags cfg ctx).insertionSort tagLe).take cfg.max_tags_per_item, ?_⟩
    rw [generateTagsForItem, if_neg hen, if_neg ?_]
    rintro ⟨-, hpan⟩
    rw [hany] at hpan
    cases hpan

/-- A configuration whose rule carries a `NaN` confidence and emits two
tags. -/
def nanRuleConfig : CategorizationConfig :=
  CategorizationConfig.mk true false 5 (F.num (mkRat 3 10)) []
    [TagRule.mk "title_contains" ["a"] "x" ["y"] F.nan [] none [] []] []

/-- C9 counterexample: with a `NaN` rule confidence and two emitted tags,
the final sort's `partial_cmp(..).unwrap()` fails — classification
panics (modelled as `Except.error ()`). -/
theorem generate_nan_panics : generateTagsForItem nanRuleConfig letterItem = .error () := by
  decide

theorem generate_ok_of_num_confidences_witness :
    ∃ out, generateTagsForItem clampedConfig letterItem = .ok out :=
  generate_ok_of_num_confidences clampedConfig letterItem (by
    intro r hr
    cases List.mem_singleton.mp hr
    rfl)


/-! ### C4: ranking and truncation -/

theorem F.leB_total (x y : F) : F.leB x y = true ∨ F.leB y x = true := by
  cases x with
  | nan => exact Or.inl rfl
  | num p =>
    cases y with
    | nan => exact Or.inr rfl
    | num q =>
      simp only [F.leB, decide_eq_true_eq]
      exact le_total p q

theorem F.leB_trans {x y z : F} (h1 : F.leB x y = true) (h2 : F.leB y z = true) :
    F.leB x z = true := by
  cases x with
  | nan => rfl
  | num p =>
    cases y with
    | nan => cases h1
    | num q =>
      cases z with
      | nan => cases h2
      | num u =>
        simp only [F.leB, decide_eq_true_eq] at h1 h2 ⊢
        exact le_trans h1 h2

instance : IsTotal Tag tagLe :=
  ⟨fun a b => F.leB_total b.confidence a.confidence⟩

instance : IsTrans Tag tagLe :=
  ⟨fun _ _ _ h1 h2 => F.leB_trans h2 h1⟩

/-- Two rules with distinct confidences for each of five tags, a cap of
two tags per item. -/
def fiveRuleConfig : CategorizationConfig :=
  CategorizationConfig.mk true false 2 (F.num (mkRat 3 10)) []
    [TagRule.mk "title_contains" ["t"] "a" [] (F.num (mkRat 5 10)) [] none [] [],
     TagRule.mk "title_contains" ["t"] "b" [] (F.num (mkRat 9 10)) [] none [] [],
     TagRule.mk "title_contains" ["t"] "c" [] (F.num (mkRat 3 10)) [] none [] [],
     TagRule.mk "title_contains" ["t"] "d" [] (F.num (mkRat 7 10)) [] none [] [],
     TagRule.mk "title_contains" ["t"] "e" [] (F.num (mkRat 1 10)) [] none [] []] []

def tinyItem : ItemContext := ItemContext.mk "t" none none none "s" none none

/-- C4 (confirmed): whenever classification returns a list, that list is
sorted by confidence descending, stable on ties (pairs already in
descending-or-equal order in the candidate list keep their relative
order), and truncated to `max_tags_per_item`; concretely, with a cap of 2
and five candidates of pairwise-distinct confidences the output is
exactly the two highest-confidence tags in descending order. -/
theorem generate_sorted_and_capped :
    (∀ (cfg : CategorizationConfig) (ctx : ItemContext) (out : List Tag),
      generateTagsForItem cfg ctx = .ok out →
        out.length ≤ cfg.max_tags_per_item ∧ List.Sorted tagLe out ∧
          (cfg.enabled = true →
            ∃ s : List Tag, (candidateTags cfg ctx).Perm s ∧ List.Sorted tagLe s ∧
              (∀ a b : Tag, List.Sublist [a, b] (candidateTags cfg ctx) → tagLe a b →
                List.Sublist [a, b] s) ∧
              out = s.take cfg.max_tags_per_item)) ∧
    generateTagsForItem fiveRuleConfig tinyItem =
      .ok [Tag.mk "b" (F.num (mkRat 9 10)) TagSource.Rule,
        Tag.mk "d" (F.num (mkRat 7 10)) TagSource.Rule] := by
  constructor
  · intro cfg ctx out hok
    rw [generateTagsForItem] at hok
    by_cases hen : cfg.enabled = false
    · rw [if_pos hen] at hok
      cases hok
      refine ⟨Nat.zero_le _, List.sorted_nil, ?_⟩
      intro htrue
      rw [htrue] at hen
      cases hen
    · rw [if_neg hen] at hok
      split at hok
      · cases hok
      · cases hok
        refine ⟨List.length_take_le _ _, ?_, ?_⟩
        · exact List.Pairwise.sublist (List.take_sublist _ _)
            (List.sorted_insertionSort tagLe _)
        · intro _
          refine ⟨(candidateTags cfg ctx).insertionSort tagLe,
            (List.perm_insertionSort tagLe _).symm, List.sorted_insertionSort tagLe _,
            ?_, rfl⟩
          intro a b hsub hab
          exact List.pair_sublist_insertionSort hab hsub
  · decide

theorem generate_sorted_and_capped_witness :
    [Tag.mk "b" (F.num (mkRat 9 10)) TagSource.Rule,
      Tag.mk "d" (F.num (mkRat 7 10)) TagSource.Rule].length ≤ 2 ∧
    List.Sorted tagLe [Tag.mk "b" (F.num (mkRat 9 10)) TagSource.Rule,
      Tag.mk "d" (F.num (mkRat 7 10)) TagSource.Rule] := by
  have h := generate_sorted_and_capped.1 fiveRuleConfig tinyItem
    [Tag.mk "b" (F.num (mkRat 9 10)) TagSource.Rule,
      Tag.mk "d" (F.num (mkRat 7 10)) TagSource.Rule] (by decide)
  exact ⟨h.1, h.2.1⟩


/-! ### C8: normalization of returned names -/

theorem aliasLookup_mem {cfg : CategorizationConfig} {k v : String}
    (h : aliasLookup cfg k = some v) : (k, v) ∈ aliasPairs cfg := by
  rw [aliasLookup] at h
  exact List.mem_reverse.mp (mem_of_lookup_eq_some h)

/-- Under the fixed-point condition on alias targets (lower-case, not
themselves alias keys), `normalize_tag` is idempotent. -/
theorem normalizeTag_idem (cfg : CategorizationConfig)
    (halias : ∀ pr ∈ aliasPairs cfg, strLower pr.2 = pr.2 ∧ aliasLookup cfg pr.2 = none)
    (x : String) : normalizeTag cfg (normalizeTag cfg x) = normalizeTag cfg x := by
  cases hl : aliasLookup cfg (strLower x) with
  | some t =>
    have hx : normalizeTag cfg x = t := by
      rw [normalizeTag, hl]
    obtain ⟨hlow0, hnone0⟩ := halias (strLower x, t) (aliasLookup_mem hl)
    have hlow : strLower t = t := hlow0
    have hnone : aliasLookup cfg t = none := hnone0
    rw [hx, normalizeTag, hlow, hnone]
  | none =>
    have hx : normalizeTag cfg x = strLower x := by
      rw [normalizeTag, hl]
    rw [hx, normalizeTag, strLower_idem, hl]

theorem mem_candidateTags_name {cfg : CategorizationConfig} {ctx : ItemContext} {t : Tag}
    (h : t ∈ candidateTags cfg ctx) : ∃ x, t.name = normalizeTag cfg x := by
  rcases mem_candidateTags_cases h with ⟨t0, heq, hsrc⟩ | hhint
  · have hn : t.name = t0.name := by
      rw [heq, boostTag_name]
    rcases hsrc with h5 | h6 | h7
    · rw [rssPart] at h5
      obtain ⟨c, -, he⟩ := mem_rssStep cfg _ _ t0 h5
      exact ⟨c, by rw [hn, he]⟩
    · rw [rulePart] at h6
      obtain ⟨-, r, -, -, ts, -, t1, -, he⟩ := mem_ruleStep cfg ctx _ cfg.rules _ t0 h6
      exact ⟨t1.name, by rw [hn, he]⟩
    · obtain ⟨-, td, -, q, -, he⟩ := mem_keywordPart h7
      exact ⟨td.name, by rw [hn, he]⟩
  · rw [hintPart] at hhint
    obtain ⟨-, hmem, -, -⟩ := mem_hintStep cfg ctx _ _ _ t hhint
    rw [feedTagHints] at hmem
    obtain ⟨x, -, he⟩ := List.mem_map.mp (List.mem_dedup.mp hmem)
    exact ⟨x, he.symm⟩

/-- C8, amended: whenever every alias target is itself lower-case and not
an alias key (so that normalization is a closure), every tag name returned
by `generate_tags_for_item` is a fixed point of lower-casing followed by
alias lookup. -/
theorem generate_names_normalized (cfg : CategorizationConfig) (ctx : ItemContext)
    (out : List Tag) (t : Tag)
    (halias : ∀ pr ∈ aliasPairs cfg, strLower pr.2 = pr.2 ∧ aliasLookup cfg pr.2 = none)
    (hok : generateTagsForItem cfg ctx = .ok out) (ht : t ∈ out) :
    normalizeTag cfg t.name = t.name := by
  obtain ⟨x, hx⟩ := mem_candidateTags_name (mem_candidates_of_generate_ok hok t ht)
  rw [hx, normalizeTag_idem cfg halias]

/-- An alias whose target `AI` is not lower-cased. -/
def aliasUpperConfig : CategorizationConfig :=
  CategorizationConfig.mk true false 5 (F.num (mkRat 3 10)) []
    [TagRule.mk "title_contains" ["a"] "ml" [] (F.num (mkRat 1 2)) [] none [] []]
    [TagAlias.mk ["ml"] "AI"]

/-- C8 counterexample: with alias `ml -> AI`, the emitted tag name is the
raw alias target `AI`; lower-casing plus alias lookup maps it to `ai`, so
the returned name is not normalization-stable. -/
theorem generate_names_counterexample :
    generateTagsForItem aliasUpperConfig letterItem =
      .ok [Tag.mk "AI" (F.num (mkRat 1 2)) TagSource.Rule] ∧
    normalizeTag aliasUpperConfig "AI" ≠ "AI" := by
  refine ⟨by decide, by decide⟩

theorem generate_names_normalized_witness :
    normalizeTag clampedConfig (Tag.mk "x" (F.num (mkRat 4 5)) TagSource.Rule).name =
      (Tag.mk "x" (F.num (mkRat 4 5)) TagSource.Rule).name :=
  generate_names_normalized clampedConfig letterItem
    [Tag.mk "x" (F.num (mkRat 4 5)) TagSource.Rule]
    (Tag.mk "x" (F.num (mkRat 4 5)) TagSource.Rule)
    (by decide) (by decide) (by decide)

/-! ### C10: protocol-category tags and exclusion -/

theorem rssStep_contains (cfg : CategorizationConfig) :
    ∀ (cats seen : List String) (cat name : String), cat ∈ cats →
      name = normalizeTag cfg cat → name ∉ seen →
      Tag.mk name (F.num (mkRat 9 10)) TagSource.Feed ∈ (rssStep cfg cats seen).1 := by
  intro cats
  induction cats with
  | nil =>
    intro seen cat name hmem
    cases hmem
  | cons c cs ih =>
    intro seen cat name hmem hname hseen
    rw [rssStep]
    by_cases hn : normalizeTag cfg c ∈ seen
    · rw [if_pos hn]
      rcases List.mem_cons.mp hmem with rfl | h2
      · exact absurd (hname ▸ hn) hseen
      · exact ih seen cat name h2 hname hseen
    · rw [if_neg hn]
      by_cases hne : name = normalizeTag cfg c
      · rw [hne]
        exact List.mem_cons_self _ _
      · have h2 : cat ∈ cs := by
          rcases List.mem_cons.mp hmem with rfl | h2
          · exact absurd hname hne
          · exact h2
        refine List.mem_cons_of_mem _ (ih (normalizeTag cfg c :: seen) cat name h2 hname ?_)
        intro hmem2
        rcases List.mem_cons.mp hmem2 with he | hs
        · exact hne he
        · exact hseen hs

/-- C10, amended: a protocol-category term whose normalized name is vetoed
by a firing `exclude_if` rule is nevertheless present among the candidate
tags, with source `Feed` and confidence `0.9` — boosted to `0.95` when the
name is also a (normalized) feed tag — and, subject to the
`max_tags_per_item` cap, in the returned list as well: the exclusion scan
runs after step 1 and the excluded set is never applied to it. -/
theorem rss_survives_exclusion (cfg : CategorizationConfig) (ctx : ItemContext)
    (cat name : String) (r : TagRule)
    (hen : cfg.enabled = true)
    (hcat : cat ∈ ctx.rss_categories.getD [])
    (hname : name = normalizeTag cfg cat)
    (_hr : r ∈ cfg.rules) (_hty : r.rule_type = "exclude_if")
    (_hmatch : ∃ p ∈ r.patterns,
      matchesKeyword (ruleContent ctx.title ctx.description) (strLower p) = true)
    (_hexc : name ∈ r.exclude_tags) :
    (∃ t ∈ candidateTags cfg ctx, t.name = name ∧ t.source = TagSource.Feed ∧
      t.confidence = (if name ∈ feedTagHints cfg ctx then F.num (mkRat 19 20)
        else F.num (mkRat 9 10))) ∧
    ∀ out, generateTagsForItem cfg ctx = .ok out →
      (candidateTags cfg ctx).length ≤ cfg.max_tags_per_item →
      ∃ t ∈ out, t.name = name ∧ t.source = TagSource.Feed ∧
        t.confidence = (if name ∈ feedTagHints cfg ctx then F.num (mkRat 19 20)
          else F.num (mkRat 9 10)) := by
  have hbase : Tag.mk name (F.num (mkRat 9 10)) TagSource.Feed ∈ (rssPart cfg ctx).1 := by
    rw [rssPart]
    exact rssStep_contains cfg _ [] cat name hcat hname (List.not_mem_nil _)
  have hmain : ∃ t ∈ candidateTags cfg ctx, t.name = name ∧ t.source = TagSource.Feed ∧
      t.confidence = (if name ∈ feedTagHints cfg ctx then F.num (mkRat 19 20)
        else F.num (mkRat 9 10)) := by
    refine ⟨boostTag (feedTagHints cfg ctx)
      (Tag.mk name (F.num (mkRat 9 10)) TagSource.Feed), ?_, ?_, ?_, ?_⟩
    · rw [candidateTags]
      refine List.mem_append_left _ (List.mem_map.mpr ⟨_, ?_, rfl⟩)
      exact List.mem_append_left _ (List.mem_append_left _ hbase)
    · rw [boostTag_name]
    · rw [boostTag_source]
    · rw [boostTag_conf]
      by_cases hmem : name ∈ feedTagHints cfg ctx
      · rw [if_pos hmem, if_pos hmem]
        show F.fmin (F.mul (F.num (mkRat 9 10)) (F.num (mkRat 6 5))) (F.num (mkRat 19 20)) =
          F.num (mkRat 19 20)
        decide
      · rw [if_neg hmem, if_neg hmem]
  refine ⟨hmain, ?_⟩
  intro out hok hlen
  obtain ⟨t, htmem, hprops⟩ := hmain
  refine ⟨t, ?_, hprops⟩
  rw [generateTagsForItem, if_neg (by simp [hen])] at hok
  split at hok
  · cases hok
  · cases hok
    rw [List.take_of_length_le]
    · exact (List.mem_insertionSort tagLe).mpr htmem
    · rw [List.length_insertionSort]
      exact hlen

/-- An item whose protocol category and feed tag are both the excluded
`x`. -/
def boostedFeedConfig : CategorizationConfig :=
  CategorizationConfig.mk true false 5 (F.num (mkRat 3 10)) []
    [TagRule.mk "exclude_if" ["t"] "" [] (F.num 1) [] none [] ["x"]] []

def boostedFeedItem : ItemContext :=
  ItemContext.mk "t" none none none "s" (some ["x"]) (some ["x"])

/-- C10 counterexample: the protocol-category tag `x` does survive the
firing `exclude_if` rule, but it is returned with confidence `0.95`, not
`0.9`: the feed-hint boost of step 5 applies to it, a modifier the claim's
parenthetical ("subject only to deduplication and the cap") excludes. -/
theorem rss_boosted_counterexample :
    generateTagsForItem boostedFeedConfig boostedFeedItem =
      .ok [Tag.mk "x" (F.num (mkRat 19 20)) TagSource.Feed] ∧
    (mkRat 19 20 : ℚ) ≠ mkRat 9 10 := by
  refine ⟨by decide, by decide⟩

theorem rss_survives_exclusion_witness :
    (∃ t ∈ candidateTags boostedFeedConfig boostedFeedItem, t.name = "x" ∧
      t.source = TagSource.Feed ∧
      t.confidence = (if "x" ∈ feedTagHints boostedFeedConfig boostedFeedItem
        then F.num (mkRat 19 20) else F.num (mkRat 9 10))) ∧
    ∀ out, generateTagsForItem boostedFeedConfig boostedFeedItem = .ok out →
      (candidateTags boostedFeedConfig boostedFeedItem).length ≤
        boostedFeedConfig.max_tags_per_item →
      ∃ t ∈ out, t.name = "x" ∧ t.source = TagSource.Feed ∧
        t.confidence = (if "x" ∈ feedTagHints boostedFeedConfig boostedFeedItem
          then F.num (mkRat 19 20) else F.num (mkRat 9 10)) :=
  rss_survives_exclusion boostedFeedConfig boostedFeedItem "x" "x"
    (TagRule.mk "exclude_if" ["t"] "" [] (F.num 1) [] none [] ["x"])
    rfl (by decide) (by decide) (by decide) rfl ⟨"t", by decide, by decide⟩ (by decide)

end Spacefeeder
